import Mathlib

/-!
Verification of the employee-attendance hash-table backend.

The definitions below are a shallow embedding of the Python sources:
`utils/hashing.py` (open-addressing hash table with linear probing),
`utils/sorting.py` (stable sort by attendance percentage) and the
record-processing / dynamic-search parts of `app.py`.  Python machine
integers are arbitrary-precision, so they are modelled by `Int`;
Python `%` on a positive modulus is floor modulo, which agrees with
`Int.emod`.  Attendance percentages (Python floats obtained by
`round(x, 1)`) are modelled as exact rationals; no property proved here
depends on the rounding mode.
-/

/-- An employee record as built by `process_records` in `app.py`
(the dict with keys `id, name, department, attendance, total_days,
attendance_percentage, hash_index`). -/
structure Record where
  id : Int
  name : String
  department : String
  attendance : Int
  total_days : Int
  attendance_percentage : ℚ
  hash_index : Nat
deriving DecidableEq

/-- The hash table of `utils/hashing.py`: a fixed array of slots, each
either empty (`none`) or holding one record.  In the Python class
`self.size` always equals `len(self.table)` (the constructor and `clear`
establish it and every update is an index assignment), so the size is
represented as the length of the slot list. -/
structure HashTable where
  table : List (Option Record)
deriving DecidableEq

/-- `self.size` of the Python class. -/
def HashTable.size (t : HashTable) : Nat := t.table.length

/-- `HashTable.__init__`: `self.table = [None] * size`. -/
def mkHashTable (size : Nat) : HashTable := ⟨List.replicate size none⟩

/-- `hash_function`: `emp_id % self.size`.  Python `%` with a positive
modulus returns the non-negative representative, as `Int.emod` does. -/
def HashTable.hash_function (t : HashTable) (emp_id : Int) : Nat :=
  (emp_id % (t.size : Int)).toNat

/-- The probing loop of `insert` (lines `for i in range(self.size): ...`):
given the list of offsets still to try, return the updated slot array and
the index used, or `none` when the loop ran out (table full). -/
def HashTable.insertAux (table : List (Option Record)) (size idx : Nat)
    (record : Record) : List Nat → Option (List (Option Record) × Nat)
  | [] => none
  | i :: rest =>
    match table.getD ((idx + i) % size) none with
    | none => some (table.set ((idx + i) % size) (some record), (idx + i) % size)
    | some slot =>
      if slot.id == record.id then
        some (table.set ((idx + i) % size) (some record), (idx + i) % size)
      else HashTable.insertAux table size idx record rest

/-- `insert`: probe `(idx + i) % size` for `i = 0 .. size-1`; place the
record at the first empty slot, or overwrite in place on an id match;
if the loop exhausts, overwrite the slot at the original hash index. -/
def HashTable.insert (t : HashTable) (record : Record) : HashTable × Nat :=
  match HashTable.insertAux t.table t.size (t.hash_function record.id) record
      (List.range t.size) with
  | some (tab, pos) => (⟨tab⟩, pos)
  | none =>
    (⟨t.table.set (t.hash_function record.id) (some record)⟩,
     t.hash_function record.id)

/-- One step of the probe trace produced by `get`:
the dict `{"index": pos, "slot": self.table[pos]}`. -/
structure TraceEntry where
  index : Nat
  slot : Option Record
deriving DecidableEq

/-- The probing loop of `get`: append a trace entry for every visited
slot, stop at the first empty slot (not found) or the first record with
the requested id (found). -/
def HashTable.getAux (table : List (Option Record)) (size idx : Nat)
    (emp_id : Int) : List Nat → Option Record × List TraceEntry
  | [] => (none, [])
  | i :: rest =>
    match table.getD ((idx + i) % size) none with
    | none => (none, [⟨(idx + i) % size, none⟩])
    | some s =>
      if s.id == emp_id then (some s, [⟨(idx + i) % size, some s⟩])
      else
        ((HashTable.getAux table size idx emp_id rest).1,
         ⟨(idx + i) % size, some s⟩
           :: (HashTable.getAux table size idx emp_id rest).2)

/-- `get`: return the record (or `none`) together with the probe trace. -/
def HashTable.get (t : HashTable) (emp_id : Int) :
    Option Record × List TraceEntry :=
  HashTable.getAux t.table t.size (t.hash_function emp_id) emp_id
    (List.range t.size)

/-- `flatten`: all stored records, in physical slot order. -/
def HashTable.flatten (t : HashTable) : List Record :=
  t.table.filterMap (fun s => s)

/-- `clear`: `self.table = [None] * self.size`. -/
def HashTable.clear (t : HashTable) : HashTable :=
  ⟨List.replicate t.size none⟩

/-- `rebuild_hashtable_from_list`: clear the table, then insert the given
records in order. -/
def rebuild_hashtable_from_list (t : HashTable) (records : List Record) :
    HashTable :=
  records.foldl (fun acc r => (acc.insert r).1) t.clear

/-- Specification-side view of the probe sequence: the slot visited at
probe step `i` when searching for `emp_id`. -/
def HashTable.probePos (t : HashTable) (emp_id : Int) (i : Nat) : Nat :=
  (t.hash_function emp_id + i) % t.size

/-- Probing stops at offset `i` (raw form): the slot at `(idx + i) % sz`
is empty or holds a record with the requested id. -/
def slotStop (table : List (Option Record)) (sz idx : Nat) (emp_id : Int)
    (i : Nat) : Bool :=
  match table.getD ((idx + i) % sz) none with
  | none => true
  | some s => s.id == emp_id

/-- Probing for `emp_id` stops at step `i`: the slot there is empty or
holds a record with that id.  Both `insert` and `get` stop exactly at
such steps. -/
def HashTable.stopCond (t : HashTable) (emp_id : Int) (i : Nat) : Bool :=
  slotStop t.table t.size (t.hash_function emp_id) emp_id i

/-- The first probe step at which probing for `emp_id` stops, or
`t.size` when no step stops (every slot occupied by other ids). -/
def HashTable.firstStop (t : HashTable) (emp_id : Int) : Nat :=
  ((List.range t.size).find? (t.stopCond emp_id)).getD t.size

/-- Number of occupied slots. -/
def HashTable.occupiedCount (t : HashTable) : Nat :=
  (t.table.filter Option.isSome).length

/-- No two distinct occupied slots hold records with equal id. -/
def UniqueIds (t : HashTable) : Prop :=
  ∀ i j ri rj, i ≠ j → t.table.getD i none = some ri →
    t.table.getD j none = some rj → ri.id ≠ rj.id

/-- The probe step at which probing for `emp_id` reaches physical slot
`p` (the inverse of `probePos` on `[0, size)`). -/
def HashTable.stepIndexOf (t : HashTable) (emp_id : Int) (p : Nat) : Nat :=
  (p + t.size - t.hash_function emp_id) % t.size

/-- Every stored record is reachable by probing for its id: every probe
step before the one that reaches its slot sees an occupied slot. -/
def WellPlaced (t : HashTable) : Prop :=
  ∀ p s, t.table.getD p none = some s →
    ∀ j, j < t.stepIndexOf s.id p →
      t.table.getD (t.probePos s.id j) none ≠ none

/-- The inductive invariant maintained by `insert`. -/
def TableInv (t : HashTable) : Prop := UniqueIds t ∧ WellPlaced t

/-- Table states reachable from a freshly constructed table by `insert`
calls. -/
inductive Reachable : HashTable → Prop where
  | base (n : Nat) : Reachable (mkHashTable n)
  | step {t : HashTable} (r : Record) : Reachable t → Reachable ((t.insert r).1)

/-- The probe loop of `insert t r` finds a stopping slot, i.e. the
full-table fallback overwrite is not triggered. -/
def HashTable.insertHasSlot (t : HashTable) (r : Record) : Prop :=
  t.firstStop r.id < t.size

instance (t : HashTable) (r : Record) : Decidable (t.insertHasSlot r) := by
  unfold HashTable.insertHasSlot; infer_instance

/-- Table states reachable by `insert` calls none of which triggered the
full-table fallback overwrite. -/
inductive ReachableNF : HashTable → Prop where
  | base (n : Nat) : ReachableNF (mkHashTable n)
  | step {t : HashTable} (r : Record) :
      ReachableNF t → t.insertHasSlot r → ReachableNF ((t.insert r).1)

/-- `sort_employees_by_percentage` of `utils/sorting.py`:
`sorted(records, key=lambda x: x.get("attendance_percentage", 0),
reverse=(order == "desc"))`.  Python's `sorted` is a stable sort by key;
with `reverse=True` it sorts descending while still keeping ties in
original order, which is exactly a stable sort by the flipped non-strict
comparison.  `mergeSort` is Lean's stable sort. -/
def sort_employees_by_percentage (records : List Record)
    (order : String) : List Record :=
  let rev := order == "desc"
  if rev then
    records.mergeSort
      (fun a b => decide (b.attendance_percentage ≤ a.attendance_percentage))
  else
    records.mergeSort
      (fun a b => decide (a.attendance_percentage ≤ b.attendance_percentage))

/-- A loosely-typed value in a raw upload row: an integer, a string, or
JSON `null` / Python `None`. -/
inductive RawVal where
  | vInt (n : Int)
  | vStr (s : String)
  | vNone
deriving DecidableEq

/-- Value of a digit string. -/
def digitsVal (l : List Char) : Nat :=
  l.foldl (fun acc c => acc * 10 + (c.toNat - '0'.toNat)) 0

/-- Python `int(s)` on a string: strip whitespace, allow one sign, then
require a non-empty run of digits; anything else raises `ValueError`
(modelled as `none`). -/
def pyStrToInt (s : String) : Option Int :=
  let body := s.trim.data
  let signDigits : Int × List Char :=
    match body with
    | '-' :: rest => (-1, rest)
    | '+' :: rest => (1, rest)
    | l => (1, l)
  if signDigits.2.isEmpty then none
  else if signDigits.2.all Char.isDigit then
    some (signDigits.1 * (digitsVal signDigits.2 : Int))
  else none

/-- Python `int(v)`: identity on integers, string parsing on strings,
`TypeError` (modelled as `none`) on `None`. -/
def pyInt : RawVal → Option Int
  | .vInt n => some n
  | .vStr s => pyStrToInt s
  | .vNone => none

/-- Python `str(v)`. -/
def pyStr : RawVal → String
  | .vInt n => toString n
  | .vStr s => s
  | .vNone => "None"

/-- A raw input row: a dict in which each of the five expected keys may
be absent (`none`) or present with a loosely-typed value. -/
structure RawRow where
  id : Option RawVal := none
  name : Option RawVal := none
  department : Option RawVal := none
  attendance : Option RawVal := none
  total_days : Option RawVal := none
deriving DecidableEq

/-- `HASH_TABLE_SIZE` in `app.py`. -/
def HASH_TABLE_SIZE : Nat := 20

/-- Python `round(x, 1)` modelled on exact rationals.  (CPython rounds
the nearest binary double half-to-even; no claim proved here depends on
the rounding mode, only on the value being a function of its inputs.) -/
def pyRound1 (x : ℚ) : ℚ := (round (x * 10) : ℤ) / 10

/-- `int(rec.get("total_days", 0)) if rec.get("total_days") is not None
else 0`: absent or `None` gives `0`, otherwise the value is parsed. -/
def pyTotalDays (rec : RawRow) : Option Int :=
  match rec.total_days with
  | none => some 0
  | some .vNone => some 0
  | some v => pyInt v

/-- The body of the `for rec in raw_list` loop in `process_records`:
build the processed record, or `none` when one of the `int(...)` calls
raises and the row is skipped by `except Exception: continue`. -/
def processRow (rec : RawRow) : Option Record :=
  match rec.id.bind pyInt with
  | none => none
  | some emp_id =>
    let nm := (pyStr (rec.name.getD (.vStr ""))).trim
    let dept := (pyStr (rec.department.getD (.vStr ""))).trim
    match pyInt (rec.attendance.getD (.vInt 0)) with
    | none => none
    | some att =>
      match pyTotalDays rec with
      | none => none
      | some td =>
        let percent : ℚ :=
          if 0 < td then pyRound1 ((att : ℚ) / (td : ℚ) * 100) else 0
        some { id := emp_id, name := nm, department := dept,
               attendance := att, total_days := td,
               attendance_percentage := percent,
               hash_index := (emp_id % (HASH_TABLE_SIZE : Int)).toNat }

/-- `process_records`: process the rows in order, inserting each
successfully parsed record into the hash table and collecting it;
skipped rows are silently omitted. -/
def process_records (raw_list : List RawRow) (t : HashTable) :
    List Record × HashTable :=
  match raw_list with
  | [] => ([], t)
  | rec :: rest =>
    match processRow rec with
    | none => process_records rest t
    | some record =>
      let step := process_records rest ((t.insert record).1)
      (record :: step.1, step.2)

/-- Python's substring test `needle in hay` on strings: some contiguous
slice of `hay` equals `needle`. -/
def strContainsSub (hay needle : String) : Bool :=
  (List.range (hay.data.length + 1)).any
    (fun i => ((hay.data.drop i).take needle.data.length) == needle.data)

/-- The `/search/dynamic` route body (`api_dynamic_search` in `app.py`):
each query parameter defaults to `""`, is stripped and lowercased, and a
record is kept when every non-empty query is a substring of the
lowercased stringified field. -/
def api_dynamic_search (all_records : List Record)
    (idQ nameQ deptQ : Option String) : List Record :=
  let id_query := (idQ.getD "").trim.toLower
  let name_query := (nameQ.getD "").trim.toLower
  let dept_query := (deptQ.getD "").trim.toLower
  all_records.filter (fun r =>
    (id_query.isEmpty || strContainsSub (toString r.id).toLower id_query)
    && (name_query.isEmpty || strContainsSub r.name.toLower name_query)
    && (dept_query.isEmpty || strContainsSub r.department.toLower dept_query))

/-- Specification-side reading of one optional dynamic-search filter:
an absent query imposes no constraint; a provided query must be a
case-insensitive substring of the stringified field. -/
def optQueryMatches (q : Option String) (field : String) : Bool :=
  match q with
  | none => true
  | some s => strContainsSub field.toLower s.trim.toLower

/-- Example record with id 2 (hashes to slot 2 in a size-5 table). -/
def exRec2 : Record := ⟨2, "Asha", "CSE", 10, 20, 50, 2⟩

/-- Example record with id 7 (also hashes to slot 2 in a size-5 table). -/
def exRec7 : Record := ⟨7, "Ben", "ECE", 5, 20, 25, 2⟩

/-- Example record with id 12 (also hashes to slot 2 in a size-5 table). -/
def exRec12 : Record := ⟨12, "Cara", "CSE", 20, 20, 100, 2⟩

/-- Example record with id 5 (hashes to slot 2 in a size-3 table). -/
def exRec5 : Record := ⟨5, "Dev", "MEC", 0, 0, 0, 2⟩

/-- A record with the same id as `exRec2` but different payload. -/
def exRec2' : Record := ⟨2, "Asha P", "CSE", 15, 20, 75, 2⟩

/-- The spec's capacity-5 example table: ids 2, 7, 12 inserted in order. -/
def exTable5 : HashTable :=
  ((((mkHashTable 5).insert exRec2).1.insert exRec7).1.insert exRec12).1

/-- A size-3 table holding ids 2 and 5, reached with no fallback: id 2
goes to slot 2, id 5 probes slot 2 (occupied) and wraps to slot 0. -/
def exTable3 : HashTable :=
  (((mkHashTable 3).insert exRec2).1.insert exRec5).1

/-- A raw row whose id parses but whose attendance field is a
non-numeric string. -/
def exRowBadAttendance : RawRow :=
  { id := some (.vStr "1"), name := some (.vStr "Bob"),
    department := some (.vStr "CSE"), attendance := some (.vStr "abc"),
    total_days := some (.vInt 10) }

/-- A fully well-formed raw row. -/
def exRowGood : RawRow :=
  { id := some (.vInt 3), name := some (.vStr "Eve"),
    department := some (.vStr "CSE"), attendance := some (.vInt 10),
    total_days := some (.vInt 20) }

/-- Dynamic-search example record 1 from the spec. -/
def exDyn1 : Record := ⟨1, "Go Lin", "CSE", 0, 0, 0, 1⟩

/-- Dynamic-search example record 2 from the spec. -/
def exDyn2 : Record := ⟨2, "Ann", "CSE", 0, 0, 0, 2⟩

/-- Sort example: id 1, percentage 50. -/
def exSortR1 : Record := ⟨1, "", "", 10, 20, 50, 1⟩

/-- Sort example: id 2, percentage 50. -/
def exSortR2 : Record := ⟨2, "", "", 10, 20, 50, 2⟩

/-- Sort example: id 3, percentage 30. -/
def exSortR3 : Record := ⟨3, "", "", 6, 20, 30, 3⟩

/-! ### Basic facts about the probe sequence -/

theorem HashTable.hash_lt (t : HashTable) (emp_id : Int) (h : 0 < t.size) :
    t.hash_function emp_id < t.size := by
  have h1 : 0 ≤ emp_id % (t.size : Int) :=
    Int.emod_nonneg emp_id (by omega)
  have h2 : emp_id % (t.size : Int) < (t.size : Int) :=
    Int.emod_lt_of_pos emp_id (by omega)
  simp only [HashTable.hash_function]
  omega

theorem HashTable.probePos_lt (t : HashTable) (e : Int) (i : Nat)
    (h : 0 < t.size) : t.probePos e i < t.size :=
  Nat.mod_lt _ h

theorem slotStop_false_iff (table : List (Option Record)) (sz idx : Nat)
    (e : Int) (i : Nat) :
    slotStop table sz idx e i = false
      ↔ ∃ s, table.getD ((idx + i) % sz) none = some s ∧ ¬ s.id = e := by
  unfold slotStop
  cases h : table.getD ((idx + i) % sz) none <;> simp

theorem slotStop_true_iff (table : List (Option Record)) (sz idx : Nat)
    (e : Int) (i : Nat) :
    slotStop table sz idx e i = true
      ↔ table.getD ((idx + i) % sz) none = none
        ∨ ∃ s, table.getD ((idx + i) % sz) none = some s ∧ s.id = e := by
  unfold slotStop
  cases h : table.getD ((idx + i) % sz) none <;> simp

theorem insertAux_cons (table : List (Option Record)) (sz idx : Nat)
    (r : Record) (i : Nat) (rest : List Nat) :
    HashTable.insertAux table sz idx r (i :: rest)
      = match table.getD ((idx + i) % sz) none with
        | none => some (table.set ((idx + i) % sz) (some r), (idx + i) % sz)
        | some slot =>
          if slot.id == r.id then
            some (table.set ((idx + i) % sz) (some r), (idx + i) % sz)
          else HashTable.insertAux table sz idx r rest := rfl

theorem insertAux_eq_find? (table : List (Option Record)) (sz idx : Nat)
    (r : Record) (l : List Nat) :
    HashTable.insertAux table sz idx r l
      = (l.find? (slotStop table sz idx r.id)).map
          (fun i => (table.set ((idx + i) % sz) (some r), (idx + i) % sz)) := by
  induction l with
  | nil => rfl
  | cons i rest ih =>
    by_cases hstop : slotStop table sz idx r.id i = true
    · rw [List.find?_cons_of_pos _ hstop]
      rcases (slotStop_true_iff table sz idx r.id i).mp hstop with hnone | ⟨s, hs, hid⟩
      · rw [insertAux_cons, hnone]
        rfl
      · rw [insertAux_cons, hs]
        have hbeq : (s.id == r.id) = true := by simp [hid]
        simp [hbeq]
    · have hstop' : slotStop table sz idx r.id i = false := by
        simpa using hstop
      rw [List.find?_cons_of_neg _ (by simp [hstop'])]
      rcases (slotStop_false_iff table sz idx r.id i).mp hstop' with ⟨s, hs, hid⟩
      have hbeq : (s.id == r.id) = false := by simp [hid]
      rw [insertAux_cons, hs]
      simp [hbeq, ih]

theorem find?_range'_first (p : Nat → Bool) (m : Nat) :
    ∀ (s k : Nat), (List.range' s m).find? p = some k →
      s ≤ k ∧ k < s + m ∧ p k = true ∧ ∀ j, s ≤ j → j < k → p j = false := by
  induction m with
  | zero => intro s k h; simp at h
  | succ m ih =>
    intro s k h
    rw [List.range'_succ] at h
    by_cases hp : p s = true
    · rw [List.find?_cons_of_pos _ hp] at h
      have hk : s = k := by injection h
      subst hk
      exact ⟨Nat.le_refl _, by omega, hp, fun j hj1 hj2 => absurd hj2 (by omega)⟩
    · have hps : p s = false := by simpa using hp
      rw [List.find?_cons_of_neg _ (by simp [hps])] at h
      obtain ⟨h1, h2, h3, h4⟩ := ih (s + 1) k h
      refine ⟨by omega, by omega, h3, fun j hj1 hj2 => ?_⟩
      rcases Nat.eq_or_lt_of_le hj1 with rfl | hlt
      · exact hps
      · exact h4 j hlt hj2

theorem find?_range'_of_first (p : Nat → Bool) (m : Nat) :
    ∀ (s k : Nat), s ≤ k → k < s + m → p k = true →
      (∀ j, s ≤ j → j < k → p j = false) →
      (List.range' s m).find? p = some k := by
  induction m with
  | zero => intro s k h1 h2 h3 h4; exact absurd h2 (by omega)
  | succ m ih =>
    intro s k h1 h2 h3 h4
    rw [List.range'_succ]
    rcases Nat.eq_or_lt_of_le h1 with rfl | hlt
    · rw [List.find?_cons_of_pos _ h3]
    · rw [List.find?_cons_of_neg _ (by simp [h4 s (Nat.le_refl _) hlt])]
      exact ih (s + 1) k hlt (by omega) h3 (fun j hj1 hj2 => h4 j (by omega) hj2)

theorem firstStop_cases (t : HashTable) (e : Int) :
    (t.firstStop e = t.size ∧ ∀ j, j < t.size → t.stopCond e j = false)
    ∨ (t.firstStop e < t.size ∧ t.stopCond e (t.firstStop e) = true
       ∧ ∀ j, j < t.firstStop e → t.stopCond e j = false) := by
  unfold HashTable.firstStop
  cases hf : (List.range t.size).find? (t.stopCond e) with
  | none =>
    left
    rw [List.find?_eq_none] at hf
    exact ⟨rfl, fun j hj => by simpa using hf j (List.mem_range.mpr hj)⟩
  | some k =>
    right
    rw [List.range_eq_range'] at hf
    obtain ⟨h1, h2, h3, h4⟩ := find?_range'_first _ _ _ _ hf
    simp only [Option.getD_some]
    exact ⟨by omega, h3, fun j hj => h4 j (by omega) hj⟩

theorem firstStop_le (t : HashTable) (e : Int) : t.firstStop e ≤ t.size := by
  rcases firstStop_cases t e with ⟨h, _⟩ | ⟨h, _, _⟩ <;> omega

theorem firstStop_stop (t : HashTable) (e : Int)
    (h : t.firstStop e < t.size) :
    t.stopCond e (t.firstStop e) = true := by
  rcases firstStop_cases t e with ⟨h1, _⟩ | ⟨_, h2, _⟩
  · exact absurd h (by omega)
  · exact h2

theorem firstStop_min (t : HashTable) (e : Int) :
    ∀ j, j < t.firstStop e → t.stopCond e j = false := by
  rcases firstStop_cases t e with ⟨h1, h2⟩ | ⟨_, _, h3⟩
  · intro j hj; exact h2 j (by omega)
  · exact h3

theorem firstStop_le_of_stop (t : HashTable) (e : Int) (i : Nat)
    (hs : t.stopCond e i = true) : t.firstStop e ≤ i := by
  by_contra hgt
  push_neg at hgt
  have := firstStop_min t e i hgt
  rw [hs] at this
  cases this

theorem insert_eq_of_lt (t : HashTable) (r : Record)
    (h : t.firstStop r.id < t.size) :
    t.insert r = (⟨t.table.set (t.probePos r.id (t.firstStop r.id)) (some r)⟩,
                  t.probePos r.id (t.firstStop r.id)) := by
  have hfind : (List.range t.size).find?
      (slotStop t.table t.size (t.hash_function r.id) r.id)
      = some (t.firstStop r.id) := by
    rw [show slotStop t.table t.size (t.hash_function r.id) r.id
        = t.stopCond r.id from rfl]
    rw [List.range_eq_range']
    exact find?_range'_of_first _ _ _ _ (Nat.zero_le _) (by omega)
      (firstStop_stop t r.id h) (fun j hj1 hj2 => firstStop_min t r.id j hj2)
  unfold HashTable.insert
  rw [insertAux_eq_find?, hfind]
  rfl

theorem insert_eq_of_full (t : HashTable) (r : Record)
    (h : t.firstStop r.id = t.size) :
    t.insert r = (⟨t.table.set (t.hash_function r.id) (some r)⟩,
                  t.hash_function r.id) := by
  have hfind : (List.range t.size).find?
      (slotStop t.table t.size (t.hash_function r.id) r.id) = none := by
    rw [show slotStop t.table t.size (t.hash_function r.id) r.id
        = t.stopCond r.id from rfl]
    rw [List.find?_eq_none]
    intro x hx
    intro hstop
    have := firstStop_le_of_stop t r.id x hstop
    have hx' := List.mem_range.mp hx
    omega
  unfold HashTable.insert
  rw [insertAux_eq_find?, hfind]
  rfl

/-! ### C8: the hash function -/

/-- C8: for every table with capacity > 0 and every integer id, including
negative ids, `hash_function` equals the non-negative modulo
`id mod capacity` and lies in `[0, capacity)`. -/
theorem hash_function_spec (t : HashTable) (emp_id : Int) (h : 0 < t.size) :
    ((t.hash_function emp_id : Int) = emp_id % (t.size : Int))
    ∧ t.hash_function emp_id < t.size := by
  have h1 : 0 ≤ emp_id % (t.size : Int) :=
    Int.emod_nonneg emp_id (by omega)
  refine ⟨?_, HashTable.hash_lt t emp_id h⟩
  simp only [HashTable.hash_function]
  omega

/-- Witness for C8 at capacity 5 and the negative id -7
(whose non-negative modulo is 3). -/
theorem hash_function_spec_witness :
    (((mkHashTable 5).hash_function (-7) : Int)
        = (-7) % ((mkHashTable 5).size : Int))
    ∧ (mkHashTable 5).hash_function (-7) < (mkHashTable 5).size :=
  hash_function_spec (mkHashTable 5) (-7) (by decide)

/-! ### C1: the insert probe contract -/

/-- C1: for capacity > 0, `insert` probes `(hash + i) % capacity` for
increasing `i`; every step before the first stop sees a slot occupied by
a different id; at the first stop (an empty slot, or a slot holding the
same id, whichever comes first) the record is written and that index is
returned; if no step stops (all slots occupied by different ids) the
slot at the original hash index is unconditionally overwritten and that
index returned. -/
theorem insert_probe_spec (t : HashTable) (r : Record) (h : 0 < t.size) :
    (∀ j, j < t.firstStop r.id →
       ∃ s, t.table.getD (t.probePos r.id j) none = some s ∧ s.id ≠ r.id)
    ∧ (t.firstStop r.id < t.size →
        ((t.insert r).2 = t.probePos r.id (t.firstStop r.id)
         ∧ (t.insert r).1.table
             = t.table.set (t.probePos r.id (t.firstStop r.id)) (some r)
         ∧ (t.table.getD (t.probePos r.id (t.firstStop r.id)) none = none
            ∨ ∃ s, t.table.getD (t.probePos r.id (t.firstStop r.id)) none
                     = some s ∧ s.id = r.id)))
    ∧ (t.firstStop r.id = t.size →
        ((t.insert r).2 = t.hash_function r.id
         ∧ (t.insert r).1.table
             = t.table.set (t.hash_function r.id) (some r))) := by
  refine ⟨?_, ?_, ?_⟩
  · intro j hj
    have := firstStop_min t r.id j hj
    exact (slotStop_false_iff t.table t.size (t.hash_function r.id) r.id j).mp this
  · intro hlt
    rw [insert_eq_of_lt t r hlt]
    refine ⟨rfl, rfl, ?_⟩
    have := firstStop_stop t r.id hlt
    exact (slotStop_true_iff t.table t.size (t.hash_function r.id) r.id
      (t.firstStop r.id)).mp this
  · intro heq
    rw [insert_eq_of_full t r heq]
    exact ⟨rfl, rfl⟩

/-- Witness for C1: inserting id 7 into the table holding ids 2, 7, 12
stops at its matching slot and returns that probe position. -/
theorem insert_probe_spec_witness :
    (exTable5.insert exRec7).2
      = exTable5.probePos exRec7.id (exTable5.firstStop exRec7.id) :=
  (((insert_probe_spec exTable5 exRec7 (by decide)).2.1) (by decide)).1

/-! ### C3: the lookup probe contract -/

theorem getAux_cons (table : List (Option Record)) (sz idx : Nat)
    (e : Int) (i : Nat) (rest : List Nat) :
    HashTable.getAux table sz idx e (i :: rest)
      = match table.getD ((idx + i) % sz) none with
        | none => (none, [⟨(idx + i) % sz, none⟩])
        | some s =>
          if s.id == e then (some s, [⟨(idx + i) % sz, some s⟩])
          else
            ((HashTable.getAux table sz idx e rest).1,
             ⟨(idx + i) % sz, some s⟩
               :: (HashTable.getAux table sz idx e rest).2) := rfl

theorem getAux_cons_stop_none (table : List (Option Record)) (sz idx : Nat)
    (e : Int) (i : Nat) (rest : List Nat)
    (h : table.getD ((idx + i) % sz) none = none) :
    HashTable.getAux table sz idx e (i :: rest)
      = (none, [⟨(idx + i) % sz, none⟩]) := by
  rw [getAux_cons, h]

theorem getAux_cons_stop_match (table : List (Option Record)) (sz idx : Nat)
    (e : Int) (i : Nat) (rest : List Nat) (s : Record)
    (h : table.getD ((idx + i) % sz) none = some s)
    (hid : (s.id == e) = true) :
    HashTable.getAux table sz idx e (i :: rest)
      = (some s, [⟨(idx + i) % sz, some s⟩]) := by
  rw [getAux_cons, h]
  simp [hid]

theorem getAux_cons_continue (table : List (Option Record)) (sz idx : Nat)
    (e : Int) (i : Nat) (rest : List Nat) (s : Record)
    (h : table.getD ((idx + i) % sz) none = some s)
    (hid : (s.id == e) = false) :
    HashTable.getAux table sz idx e (i :: rest)
      = ((HashTable.getAux table sz idx e rest).1,
         ⟨(idx + i) % sz, some s⟩
           :: (HashTable.getAux table sz idx e rest).2) := by
  rw [getAux_cons, h]
  simp [hid]

theorem getAux_no_stop (table : List (Option Record)) (sz idx : Nat)
    (e : Int) (m : Nat) :
    ∀ s, (∀ j, s ≤ j → j < s + m → slotStop table sz idx e j = false) →
      HashTable.getAux table sz idx e (List.range' s m)
        = (none, (List.range' s m).map
            (fun i => ⟨(idx + i) % sz, table.getD ((idx + i) % sz) none⟩)) := by
  induction m with
  | zero => intro s _; rfl
  | succ m ih =>
    intro s hall
    rw [List.range'_succ]
    have h0 : slotStop table sz idx e s = false :=
      hall s (Nat.le_refl _) (by omega)
    obtain ⟨r0, hr0, hne⟩ := (slotStop_false_iff table sz idx e s).mp h0
    rw [getAux_cons_continue table sz idx e s _ r0 hr0 (by simp [hne])]
    rw [ih (s + 1) (fun j hj1 hj2 => hall j (by omega) (by omega))]
    simp [hr0]
    rw [← List.getD_eq_getElem?_getD]
    exact hr0.symm

theorem getAux_first_stop (table : List (Option Record)) (sz idx : Nat)
    (e : Int) (m : Nat) :
    ∀ s k, s ≤ k → k < s + m →
      slotStop table sz idx e k = true →
      (∀ j, s ≤ j → j < k → slotStop table sz idx e j = false) →
      HashTable.getAux table sz idx e (List.range' s m)
        = (table.getD ((idx + k) % sz) none,
           (List.range' s (k - s + 1)).map
             (fun i => ⟨(idx + i) % sz, table.getD ((idx + i) % sz) none⟩)) := by
  induction m with
  | zero => intro s k h1 h2 _ _; exact absurd h2 (by omega)
  | succ m ih =>
    intro s k h1 h2 hk hmin
    rw [List.range'_succ]
    rcases Nat.eq_or_lt_of_le h1 with rfl | hlt
    · have hd : s - s + 1 = 1 := by omega
      rw [hd]
      rcases (slotStop_true_iff table sz idx e s).mp hk with hnone | ⟨s0, hs0, hid⟩
      · rw [getAux_cons_stop_none table sz idx e s _ hnone, hnone]
        simp [List.range']
        rw [← List.getD_eq_getElem?_getD]
        exact hnone.symm
      · rw [getAux_cons_stop_match table sz idx e s _ s0 hs0 (by simp [hid]), hs0]
        simp [List.range']
        rw [← List.getD_eq_getElem?_getD]
        exact hs0.symm
    · have h0 : slotStop table sz idx e s = false :=
        hmin s (Nat.le_refl _) hlt
      obtain ⟨r0, hr0, hne⟩ := (slotStop_false_iff table sz idx e s).mp h0
      rw [getAux_cons_continue table sz idx e s _ r0 hr0 (by simp [hne])]
      rw [ih (s + 1) k hlt (by omega) hk
        (fun j hj1 hj2 => hmin j (by omega) hj2)]
      have hks : k - s + 1 = (k - (s + 1) + 1) + 1 := by omega
      rw [hks, List.range'_succ]
      rw [List.getD_eq_getElem?_getD] at hr0
      simp [List.range'_succ, hr0]

/-- C3: for capacity > 0, `get` visits exactly the probe positions
`(hash + i) % capacity` for `i = 0, 1, ...`, stopping at the first empty
slot or the first slot holding the requested id, whichever comes first;
its trace is exactly the ordered `(index, slot contents)` list of the
visited prefix; it returns the record when the stop was a match and
`none` otherwise (also when no stop exists and all slots are visited). -/
theorem get_probe_spec (t : HashTable) (e : Int) (h : 0 < t.size) :
    (t.get e).2
      = (List.range (min (t.firstStop e + 1) t.size)).map
          (fun i => ⟨t.probePos e i, t.table.getD (t.probePos e i) none⟩)
    ∧ (∀ j, j < t.firstStop e →
        ∃ s, t.table.getD (t.probePos e j) none = some s ∧ s.id ≠ e)
    ∧ (t.firstStop e < t.size →
        ((t.get e).1 = t.table.getD (t.probePos e (t.firstStop e)) none
         ∧ (t.table.getD (t.probePos e (t.firstStop e)) none = none
            ∨ ∃ s, t.table.getD (t.probePos e (t.firstStop e)) none = some s
                   ∧ s.id = e)))
    ∧ (t.firstStop e = t.size → (t.get e).1 = none) := by
  have hmin2 : ∀ j, j < t.firstStop e →
      ∃ s, t.table.getD (t.probePos e j) none = some s ∧ s.id ≠ e := by
    intro j hj
    exact (slotStop_false_iff t.table t.size (t.hash_function e) e j).mp
      (firstStop_min t e j hj)
  rcases firstStop_cases t e with ⟨heq, hall⟩ | ⟨hlt, hstop, hmn⟩
  · have hg : t.get e
        = (none, (List.range' 0 t.size).map
            (fun i => ⟨(t.hash_function e + i) % t.size,
                       t.table.getD ((t.hash_function e + i) % t.size) none⟩)) := by
      unfold HashTable.get
      rw [List.range_eq_range']
      exact getAux_no_stop t.table t.size (t.hash_function e) e t.size 0
        (fun j hj1 hj2 => hall j (by omega))
    refine ⟨?_, hmin2, ?_, ?_⟩
    · rw [hg, heq]
      have hm : min (t.size + 1) t.size = t.size := by omega
      rw [hm, List.range_eq_range']
      rfl
    · intro hlt'; exact absurd hlt' (by omega)
    · intro _; rw [hg]
  · have hg : t.get e
        = (t.table.getD ((t.hash_function e + t.firstStop e) % t.size) none,
           (List.range' 0 (t.firstStop e - 0 + 1)).map
             (fun i => ⟨(t.hash_function e + i) % t.size,
                        t.table.getD ((t.hash_function e + i) % t.size) none⟩)) := by
      unfold HashTable.get
      rw [List.range_eq_range']
      exact getAux_first_stop t.table t.size (t.hash_function e) e t.size 0
        (t.firstStop e) (Nat.zero_le _) (by omega) hstop
        (fun j hj1 hj2 => hmn j hj2)
    refine ⟨?_, hmin2, ?_, ?_⟩
    · rw [hg]
      have hm : min (t.firstStop e + 1) t.size = t.firstStop e - 0 + 1 := by
        omega
      rw [hm, List.range_eq_range']
      rfl
    · intro _
      refine ⟨by rw [hg]; rfl, ?_⟩
      exact (slotStop_true_iff t.table t.size (t.hash_function e) e
        (t.firstStop e)).mp hstop
    · intro heq'; exact absurd heq' (by omega)

/-- Witness for C3: looking up id 12 in the spec's capacity-5 example
table produces the trace over slots 2, 3, 4. -/
theorem get_probe_spec_witness :
    (exTable5.get 12).2
      = (List.range (min (exTable5.firstStop 12 + 1) exTable5.size)).map
          (fun i => ⟨exTable5.probePos 12 i,
                     exTable5.table.getD (exTable5.probePos 12 i) none⟩) :=
  (get_probe_spec exTable5 12 (by decide)).1

/-! ### C10: occupied-slot count under insert -/

theorem occupied_filter_set (l : List (Option Record)) :
    ∀ (pos : Nat) (r : Record), pos < l.length →
      ((l.set pos (some r)).filter Option.isSome).length
        = (l.filter Option.isSome).length
          + (if (l.getD pos none).isSome then 0 else 1) := by
  induction l with
  | nil => intro pos r h; simp at h
  | cons x xs ih =>
    intro pos r h
    cases pos with
    | zero =>
      cases x <;> simp
    | succ p =>
      have hp : p < xs.length := by simpa using h
      cases x <;> simp [ih p r hp] <;> omega

/-- C10: for capacity > 0, one `insert` never decreases the occupied
count and raises it by at most one; the replace-on-duplicate path and
the full-table fallback path leave it exactly unchanged. -/
theorem insert_count_spec (t : HashTable) (r : Record) (h : 0 < t.size) :
    t.occupiedCount ≤ ((t.insert r).1).occupiedCount
    ∧ ((t.insert r).1).occupiedCount ≤ t.occupiedCount + 1
    ∧ ((t.firstStop r.id < t.size ∧
         ∃ s, t.table.getD (t.probePos r.id (t.firstStop r.id)) none = some s
              ∧ s.id = r.id)
        → ((t.insert r).1).occupiedCount = t.occupiedCount)
    ∧ (t.firstStop r.id = t.size
        → ((t.insert r).1).occupiedCount = t.occupiedCount) := by
  rcases firstStop_cases t r.id with ⟨heq, hall⟩ | ⟨hlt, hstop, hmn⟩
  · -- no stopping slot: fallback overwrite of the (occupied) home slot
    have hh := HashTable.hash_lt t r.id h
    have h0 : t.stopCond r.id 0 = false := hall 0 h
    obtain ⟨s0, hs0, _⟩ :=
      (slotStop_false_iff t.table t.size (t.hash_function r.id) r.id 0).mp h0
    have hpos0 : (t.hash_function r.id + 0) % t.size = t.hash_function r.id := by
      rw [Nat.add_zero]
      exact Nat.mod_eq_of_lt hh
    rw [hpos0] at hs0
    have hcount : ((t.insert r).1).occupiedCount = t.occupiedCount := by
      rw [insert_eq_of_full t r heq]
      show ((t.table.set (t.hash_function r.id) (some r)).filter
        Option.isSome).length = _
      rw [occupied_filter_set t.table (t.hash_function r.id) r hh, hs0]
      rfl
    exact ⟨by omega, by omega, fun _ => hcount, fun _ => hcount⟩
  · -- a stopping slot exists
    have hposlt : t.probePos r.id (t.firstStop r.id) < t.size :=
      HashTable.probePos_lt t r.id _ h
    have hset : ((t.insert r).1).occupiedCount
        = (t.table.filter Option.isSome).length
          + (if (t.table.getD (t.probePos r.id (t.firstStop r.id)) none).isSome
             then 0 else 1) := by
      rw [insert_eq_of_lt t r hlt]
      exact occupied_filter_set t.table _ r hposlt
    rcases (slotStop_true_iff t.table t.size (t.hash_function r.id) r.id
        (t.firstStop r.id)).mp hstop with hnone | ⟨s0, hs0, hid⟩
    · -- stop at an empty slot: count goes up by one
      have hnone' : t.table.getD (t.probePos r.id (t.firstStop r.id)) none
          = none := hnone
      have hcount : ((t.insert r).1).occupiedCount = t.occupiedCount + 1 := by
        rw [hset, hnone']
        rfl
      refine ⟨by omega, by omega, ?_, ?_⟩
      · rintro ⟨-, s1, hs1, -⟩
        rw [hs1] at hnone'
        cases hnone'
      · intro heq'; exact absurd heq' (by omega)
    · -- stop at the matching id: overwrite in place, count unchanged
      have hs0' : t.table.getD (t.probePos r.id (t.firstStop r.id)) none
          = some s0 := hs0
      have hcount : ((t.insert r).1).occupiedCount = t.occupiedCount := by
        rw [hset, hs0']
        rfl
      refine ⟨by omega, by omega, fun _ => hcount, ?_⟩
      intro heq'; exact absurd heq' (by omega)

/-- Witness for C10: re-inserting id 2 (already present) into the
example table leaves the occupied count unchanged and within bounds. -/
theorem insert_count_spec_witness :
    exTable5.occupiedCount ≤ ((exTable5.insert exRec2').1).occupiedCount
    ∧ ((exTable5.insert exRec2').1).occupiedCount
        ≤ exTable5.occupiedCount + 1 :=
  ⟨(insert_count_spec exTable5 exRec2' (by decide)).1,
   (insert_count_spec exTable5 exRec2' (by decide)).2.1⟩

/-! ### C6: stable sort by attendance percentage -/

theorem mergeSort_filter_stable (l : List Record) (le : Record → Record → Bool)
    (htrans : ∀ a b c, le a b → le b c → le a c)
    (htotal : ∀ a b, le a b || le b a)
    (p : Record → Bool) (hp : ∀ a b, p a → p b → le a b) :
    (l.mergeSort le).filter p = l.filter p := by
  have hpair : (l.filter p).Pairwise (fun a b => le a b) := by
    apply List.pairwise_of_forall_mem_list
    intro a ha b hb
    exact hp a b (List.of_mem_filter ha) (List.of_mem_filter hb)
  have hsub : List.Sublist (l.filter p) (l.mergeSort le) :=
    List.sublist_mergeSort htrans htotal hpair (List.filter_sublist l)
  have hsub2 : List.Sublist (l.filter p) ((l.mergeSort le).filter p) := by
    have h2 := hsub.filter p
    rw [List.filter_filter] at h2
    simpa only [Bool.and_self] using h2
  have hlen : ((l.mergeSort le).filter p).length = (l.filter p).length :=
    ((List.mergeSort_perm l le).filter p).length_eq
  exact (hsub2.eq_of_length hlen.symm).symm

unseal List.merge List.mergeSort in
theorem sort_asc_example :
    sort_employees_by_percentage [exSortR1, exSortR2, exSortR3] "asc"
      = [exSortR3, exSortR1, exSortR2] := by
  decide

/-- C6: for every list of records, sorting ascending or descending by
`attendance_percentage` returns a permutation of the input, sorted in the
requested direction, and stably: the sublist of records at each fixed
percentage value is exactly the one of the input, in both directions; in
particular sorting ids 1, 2, 3 with percentages 50, 50, 30 ascending
yields ids 3, 1, 2. -/
theorem sort_by_percentage_spec (records : List Record) :
    ((sort_employees_by_percentage records "asc").Perm records
      ∧ (sort_employees_by_percentage records "asc").Pairwise
          (fun a b => a.attendance_percentage ≤ b.attendance_percentage)
      ∧ ∀ v : ℚ, (sort_employees_by_percentage records "asc").filter
            (fun r => r.attendance_percentage == v)
          = records.filter (fun r => r.attendance_percentage == v))
    ∧ ((sort_employees_by_percentage records "desc").Perm records
      ∧ (sort_employees_by_percentage records "desc").Pairwise
          (fun a b => b.attendance_percentage ≤ a.attendance_percentage)
      ∧ ∀ v : ℚ, (sort_employees_by_percentage records "desc").filter
            (fun r => r.attendance_percentage == v)
          = records.filter (fun r => r.attendance_percentage == v))
    ∧ sort_employees_by_percentage [exSortR1, exSortR2, exSortR3] "asc"
        = [exSortR3, exSortR1, exSortR2] := by
  have hasc : sort_employees_by_percentage records "asc"
      = records.mergeSort
          (fun a b => decide (a.attendance_percentage ≤ b.attendance_percentage)) := by
    simp [sort_employees_by_percentage]
  have hdesc : sort_employees_by_percentage records "desc"
      = records.mergeSort
          (fun a b => decide (b.attendance_percentage ≤ a.attendance_percentage)) := by
    simp [sort_employees_by_percentage]
  have htransA : ∀ a b c : Record,
      decide (a.attendance_percentage ≤ b.attendance_percentage) = true →
      decide (b.attendance_percentage ≤ c.attendance_percentage) = true →
      decide (a.attendance_percentage ≤ c.attendance_percentage) = true := by
    intro a b c hab hbc
    simp only [decide_eq_true_eq] at *
    exact le_trans hab hbc
  have htotalA : ∀ a b : Record,
      (decide (a.attendance_percentage ≤ b.attendance_percentage)
       || decide (b.attendance_percentage ≤ a.attendance_percentage)) = true := by
    intro a b
    simp only [Bool.or_eq_true, decide_eq_true_eq]
    exact le_total _ _
  have htransD : ∀ a b c : Record,
      decide (b.attendance_percentage ≤ a.attendance_percentage) = true →
      decide (c.attendance_percentage ≤ b.attendance_percentage) = true →
      decide (c.attendance_percentage ≤ a.attendance_percentage) = true := by
    intro a b c hab hbc
    simp only [decide_eq_true_eq] at *
    exact le_trans hbc hab
  have htotalD : ∀ a b : Record,
      (decide (b.attendance_percentage ≤ a.attendance_percentage)
       || decide (a.attendance_percentage ≤ b.attendance_percentage)) = true := by
    intro a b
    simp only [Bool.or_eq_true, decide_eq_true_eq]
    exact le_total _ _
  refine ⟨⟨?_, ?_, ?_⟩, ⟨?_, ?_, ?_⟩, ?_⟩
  · rw [hasc]; exact List.mergeSort_perm records _
  · rw [hasc]
    exact List.Pairwise.imp (fun h => of_decide_eq_true h)
      (List.sorted_mergeSort htransA htotalA records)
  · intro v
    rw [hasc]
    refine mergeSort_filter_stable records _ htransA htotalA _ ?_
    intro a b ha hb
    simp only [beq_iff_eq] at ha hb
    simp [ha, hb]
  · rw [hdesc]; exact List.mergeSort_perm records _
  · rw [hdesc]
    exact List.Pairwise.imp (fun h => of_decide_eq_true h)
      (List.sorted_mergeSort htransD htotalD records)
  · intro v
    rw [hdesc]
    refine mergeSort_filter_stable records _ htransD htotalD _ ?_
    intro a b ha hb
    simp only [beq_iff_eq] at ha hb
    simp [ha, hb]
  · exact sort_asc_example

/-! ### C9: dynamic multi-field search -/

theorem strContainsSub_empty_needle (hay : String) :
    strContainsSub hay "" = true := by
  unfold strContainsSub
  rw [List.any_eq_true]
  refine ⟨0, List.mem_range.mpr (by omega), ?_⟩
  simp

unseal Substring.takeWhileAux Substring.takeRightWhileAux String.mapAux in
theorem empty_trim_toLower_isEmpty : ("".trim.toLower).isEmpty = true := by
  decide

unseal Substring.takeWhileAux Substring.takeRightWhileAux String.mapAux in
theorem api_dynamic_search_example_name :
    api_dynamic_search [exDyn1, exDyn2] none (some "go") none = [exDyn1] := by
  decide

unseal Substring.takeWhileAux Substring.takeRightWhileAux String.mapAux in
theorem api_dynamic_search_example_dept :
    api_dynamic_search [exDyn1, exDyn2] none none (some "cse")
      = [exDyn1, exDyn2] := by
  decide

theorem queryClause_eq (q : Option String) (field : String) :
    (((q.getD "").trim.toLower).isEmpty
      || strContainsSub field.toLower ((q.getD "").trim.toLower))
    = optQueryMatches q field := by
  cases q with
  | none => simp [optQueryMatches, empty_trim_toLower_isEmpty]
  | some s =>
    by_cases he : ((s.trim.toLower).isEmpty) = true
    · have hs : s.trim.toLower = "" := (String.isEmpty_iff _).mp he
      simp [optQueryMatches, he, hs, strContainsSub_empty_needle]
    · have he' : ((s.trim.toLower).isEmpty) = false := by
        simpa using he
      simp [optQueryMatches, he']

/-- C9: for every snapshot and every combination of optional id, name,
and department queries, `api_dynamic_search` returns exactly the records
of the snapshot, in snapshot order, for which every provided query is a
case-insensitive substring of the stringified corresponding field (the
logical AND of the provided filters; absent queries impose no
constraint); in particular for records (1, "Go Lin", "CSE") and
(2, "Ann", "CSE"), the name query "go" returns only the first and the
department query "cse" returns both. -/
theorem api_dynamic_search_spec (records : List Record)
    (idQ nameQ deptQ : Option String) :
    api_dynamic_search records idQ nameQ deptQ
      = records.filter (fun r =>
          optQueryMatches idQ (toString r.id)
          && optQueryMatches nameQ r.name
          && optQueryMatches deptQ r.department)
    ∧ api_dynamic_search [exDyn1, exDyn2] none (some "go") none = [exDyn1]
    ∧ api_dynamic_search [exDyn1, exDyn2] none none (some "cse")
        = [exDyn1, exDyn2] := by
  refine ⟨?_, api_dynamic_search_example_name, api_dynamic_search_example_dept⟩
  unfold api_dynamic_search
  apply List.filter_congr
  intro r _
  rw [queryClause_eq idQ (toString r.id), queryClause_eq nameQ r.name,
    queryClause_eq deptQ r.department]

/-! ### C7: row processing and skipping -/

unseal Substring.takeWhileAux Substring.takeRightWhileAux String.mapAux in
/-- Counterexample to C7 as stated: in this row the id field parses as
the integer 1, yet the row is omitted from the processed sequence,
because its attendance field `"abc"` fails `int(...)` inside the same
`try` block (it is not defaulted to 0). -/
theorem process_records_skip_counterexample :
    (exRowBadAttendance.id.bind pyInt) = some 1
    ∧ (process_records [exRowBadAttendance] (mkHashTable 20)).1 = [] := by
  constructor
  · decide
  · decide

/-- C7 (amended): a row is skipped, without aborting the rest of the
batch, iff one of its integer parses fails: `id` (required; absent or
null fails), `attendance` when present (absent defaults to 0), or
`total_days` when present and non-null (absent or null defaults to 0);
the returned sequence lists the successfully processed records in input
order, independently of the table state. -/
theorem process_records_spec (rows : List RawRow) (t : HashTable) :
    (process_records rows t).1 = rows.filterMap processRow
    ∧ (∀ row : RawRow, (processRow row).isSome
        ↔ ((row.id.bind pyInt).isSome
           ∧ (pyInt (row.attendance.getD (.vInt 0))).isSome
           ∧ (pyTotalDays row).isSome))
    ∧ (∀ row rec, processRow row = some rec → row.attendance = none →
        rec.attendance = 0)
    ∧ (∀ row rec, processRow row = some rec →
        (row.total_days = none ∨ row.total_days = some .vNone) →
        rec.total_days = 0) := by
  refine ⟨?_, ?_, ?_, ?_⟩
  · induction rows generalizing t with
    | nil => rfl
    | cons row rest ih =>
      cases hrow : processRow row with
      | none => simp [process_records, hrow, List.filterMap_cons, ih]
      | some rec => simp [process_records, hrow, List.filterMap_cons, ih]
  · intro row
    cases h1 : row.id.bind pyInt with
    | none => simp [processRow, h1]
    | some emp =>
      cases h2 : pyInt (row.attendance.getD (.vInt 0)) with
      | none => simp [processRow, h1, h2]
      | some att =>
        cases h3 : pyTotalDays row with
        | none => simp [processRow, h1, h2, h3]
        | some td => simp [processRow, h1, h2, h3]
  · intro row rec h hnone
    rw [processRow] at h
    cases h1 : row.id.bind pyInt with
    | none => rw [h1] at h; cases h
    | some emp =>
      rw [h1, hnone] at h
      cases h3 : pyTotalDays row with
      | none => rw [h3] at h; cases h
      | some td =>
        rw [h3] at h
        have := Option.some.inj h
        rw [← this]
  · intro row rec h htd
    have h3 : pyTotalDays row = some 0 := by
      rcases htd with h' | h' <;> simp [pyTotalDays, h']
    rw [processRow] at h
    cases h1 : row.id.bind pyInt with
    | none => rw [h1] at h; cases h
    | some emp =>
      rw [h1] at h
      cases h2 : pyInt (row.attendance.getD (.vInt 0)) with
      | none => rw [h2] at h; cases h
      | some att =>
        rw [h2, h3] at h
        have := Option.some.inj h
        rw [← this]

/-- Witness for C7 (amended): a good row followed by a bad row processes
to exactly the per-row results, in order. -/
theorem process_records_spec_witness :
    (process_records [exRowGood, exRowBadAttendance] (mkHashTable 20)).1
      = [exRowGood, exRowBadAttendance].filterMap processRow :=
  (process_records_spec [exRowGood, exRowBadAttendance] (mkHashTable 20)).1

/-! ### Arithmetic of the probe sequence and slot updates -/

theorem HashTable.stepIndexOf_lt (t : HashTable) (e : Int) (p : Nat)
    (h0 : 0 < t.size) : t.stepIndexOf e p < t.size :=
  Nat.mod_lt _ h0

theorem probePos_stepIndexOf (t : HashTable) (e : Int) (p : Nat)
    (h0 : 0 < t.size) (hp : p < t.size) :
    t.probePos e (t.stepIndexOf e p) = p := by
  have hh := HashTable.hash_lt t e h0
  show (t.hash_function e + (p + t.size - t.hash_function e) % t.size) % t.size
      = p
  have e1 : t.hash_function e + (p + t.size - t.hash_function e)
      = p + t.size := by omega
  calc (t.hash_function e + (p + t.size - t.hash_function e) % t.size) % t.size
      = (t.hash_function e + (p + t.size - t.hash_function e)) % t.size :=
        Nat.ModEq.add_left _ (Nat.mod_modEq _ _)
    _ = (p + t.size) % t.size := by rw [e1]
    _ = p % t.size := Nat.add_mod_right p t.size
    _ = p := Nat.mod_eq_of_lt hp

theorem probePos_inj (t : HashTable) (e : Int) (i j : Nat)
    (hi : i < t.size) (hj : j < t.size)
    (heq : t.probePos e i = t.probePos e j) : i = j := by
  have h1 : i % t.size = j % t.size :=
    Nat.ModEq.add_left_cancel' (t.hash_function e) heq
  rwa [Nat.mod_eq_of_lt hi, Nat.mod_eq_of_lt hj] at h1

theorem stepIndexOf_probePos (t : HashTable) (e : Int) (k : Nat)
    (h0 : 0 < t.size) (hk : k < t.size) :
    t.stepIndexOf e (t.probePos e k) = k := by
  apply probePos_inj t e _ k (t.stepIndexOf_lt e _ h0) hk
  exact probePos_stepIndexOf t e (t.probePos e k) h0
    (HashTable.probePos_lt t e k h0)

theorem stepIndexOf_hash (t : HashTable) (e : Int) (h0 : 0 < t.size) :
    t.stepIndexOf e (t.hash_function e) = 0 := by
  have hh := HashTable.hash_lt t e h0
  show (t.hash_function e + t.size - t.hash_function e) % t.size = 0
  have e1 : t.hash_function e + t.size - t.hash_function e = t.size := by omega
  rw [e1, Nat.mod_self]

theorem lt_length_of_getD_some (l : List (Option Record)) (p : Nat)
    (s : Record) (h : l.getD p none = some s) : p < l.length := by
  by_contra hge
  push_neg at hge
  rw [List.getD_eq_getElem?_getD, List.getElem?_eq_none (by omega)] at h
  cases h

theorem getD_set_self (l : List (Option Record)) (p : Nat)
    (a : Option Record) (hp : p < l.length) :
    (l.set p a).getD p none = a := by
  simp [List.getD_eq_getElem?_getD, List.getElem?_set_self hp]

theorem getD_set_ne (l : List (Option Record)) (p q : Nat)
    (a : Option Record) (h : p ≠ q) :
    (l.set p a).getD q none = l.getD q none := by
  simp [List.getD_eq_getElem?_getD, List.getElem?_set_ne h]

theorem getD_replicate_none (n p : Nat) :
    (List.replicate n (none : Option Record)).getD p none = none := by
  rw [List.getD_eq_getElem?_getD, List.getElem?_replicate]
  split <;> rfl

theorem insert_size (t : HashTable) (r : Record) :
    ((t.insert r).1).size = t.size := by
  rcases firstStop_cases t r.id with ⟨heq, _⟩ | ⟨hlt, _, _⟩
  · rw [insert_eq_of_full t r heq]
    show (t.table.set _ _).length = t.table.length
    simp
  · rw [insert_eq_of_lt t r hlt]
    show (t.table.set _ _).length = t.table.length
    simp

theorem hash_congr (t t' : HashTable) (h : t'.size = t.size) (e : Int) :
    t'.hash_function e = t.hash_function e := by
  unfold HashTable.hash_function
  rw [h]

theorem probePos_congr (t t' : HashTable) (h : t'.size = t.size)
    (e : Int) (i : Nat) : t'.probePos e i = t.probePos e i := by
  unfold HashTable.probePos
  rw [h, hash_congr t t' h]

theorem stepIndexOf_congr (t t' : HashTable) (h : t'.size = t.size)
    (e : Int) (p : Nat) : t'.stepIndexOf e p = t.stepIndexOf e p := by
  unfold HashTable.stepIndexOf
  rw [h, hash_congr t t' h]

/-! ### C2: uniqueness of ids across slots -/

theorem tableInv_mk (n : Nat) : TableInv (mkHashTable n) := by
  constructor
  · intro i j ri rj hij hi hj
    rw [show (mkHashTable n).table = List.replicate n none from rfl,
      getD_replicate_none] at hi
    cases hi
  · intro p s hp
    rw [show (mkHashTable n).table = List.replicate n none from rfl,
      getD_replicate_none] at hp
    cases hp

theorem no_dup_of_empty_stop (t : HashTable) (e : Int) (h0 : 0 < t.size)
    (hInv : TableInv t) (hlt : t.firstStop e < t.size)
    (hempty : t.table.getD (t.probePos e (t.firstStop e)) none = none) :
    ∀ p s, t.table.getD p none = some s → s.id ≠ e := by
  intro p s hp hid
  have hplt : p < t.size := lt_length_of_getD_some _ _ _ hp
  have hi_lt : t.stepIndexOf e p < t.size := t.stepIndexOf_lt e p h0
  have hprobe : t.probePos e (t.stepIndexOf e p) = p :=
    probePos_stepIndexOf t e p h0 hplt
  have hstop_i : t.stopCond e (t.stepIndexOf e p) = true := by
    apply (slotStop_true_iff t.table t.size (t.hash_function e) e _).mpr
    right
    refine ⟨s, ?_, hid⟩
    rw [show (t.hash_function e + t.stepIndexOf e p) % t.size = p from hprobe]
    exact hp
  have hk_le : t.firstStop e ≤ t.stepIndexOf e p :=
    firstStop_le_of_stop t e _ hstop_i
  rcases Nat.lt_or_ge (t.firstStop e) (t.stepIndexOf e p) with hki | hki
  · have hW := hInv.2 p s hp (t.firstStop e) (by rw [hid]; exact hki)
    rw [hid] at hW
    exact hW hempty
  · have heqk : t.firstStop e = t.stepIndexOf e p := by omega
    rw [heqk, hprobe] at hempty
    rw [hempty] at hp
    cases hp

theorem tableInv_set (t : HashTable) (r : Record) (P : Nat) (h0 : 0 < t.size)
    (hInv : TableInv t) (hP : P < t.size)
    (hfresh : ∀ q s, t.table.getD q none = some s → q ≠ P → s.id ≠ r.id)
    (hreach : ∀ j, j < t.stepIndexOf r.id P →
      t.table.getD (t.probePos r.id j) none ≠ none) :
    TableInv ⟨t.table.set P (some r)⟩ := by
  have hPlen : P < t.table.length := hP
  have hsz : (⟨t.table.set P (some r)⟩ : HashTable).size = t.size := by
    show (t.table.set P (some r)).length = t.table.length
    simp
  have hmono : ∀ q, t.table.getD q none ≠ none →
      (t.table.set P (some r)).getD q none ≠ none := by
    intro q hq
    by_cases hqP : P = q
    · subst hqP
      rw [getD_set_self _ _ _ hPlen]
      simp
    · rw [getD_set_ne _ _ _ _ hqP]
      exact hq
  constructor
  · intro i j ri rj hij hi hj
    by_cases hiP : i = P
    · subst hiP
      rw [getD_set_self _ _ _ hPlen] at hi
      obtain rfl : r = ri := by injection hi
      rw [getD_set_ne _ _ _ _ hij] at hj
      exact Ne.symm (hfresh j rj hj (Ne.symm hij))
    · by_cases hjP : j = P
      · subst hjP
        rw [getD_set_self _ _ _ hPlen] at hj
        obtain rfl : r = rj := by injection hj
        rw [getD_set_ne _ _ _ _ (Ne.symm hiP)] at hi
        exact hfresh i ri hi hiP
      · rw [getD_set_ne _ _ _ _ (Ne.symm hiP)] at hi
        rw [getD_set_ne _ _ _ _ (Ne.symm hjP)] at hj
        exact hInv.1 i j ri rj hij hi hj
  · intro p s hp j hj
    rw [stepIndexOf_congr t ⟨t.table.set P (some r)⟩ hsz] at hj
    rw [probePos_congr t ⟨t.table.set P (some r)⟩ hsz]
    show (t.table.set P (some r)).getD (t.probePos s.id j) none ≠ none
    by_cases hpP : p = P
    · subst hpP
      rw [show (⟨t.table.set p (some r)⟩ : HashTable).table
          = t.table.set p (some r) from rfl,
        getD_set_self _ _ _ hPlen] at hp
      obtain rfl : r = s := by injection hp
      exact hmono _ (hreach j hj)
    · rw [show (⟨t.table.set P (some r)⟩ : HashTable).table
          = t.table.set P (some r) from rfl,
        getD_set_ne _ _ _ _ (Ne.symm hpP)] at hp
      exact hmono _ (hInv.2 p s hp j hj)

theorem tableInv_insert (t : HashTable) (r : Record) (hInv : TableInv t) :
    TableInv ((t.insert r).1) := by
  by_cases h0 : 0 < t.size
  · rcases firstStop_cases t r.id with ⟨heq, hall⟩ | ⟨hlt, hstop, hmn⟩
    · -- no stopping slot: fallback overwrite at the home index
      have hh := HashTable.hash_lt t r.id h0
      have hcover : ∀ q s, t.table.getD q none = some s → s.id ≠ r.id := by
        intro q s hq
        have hqlt : q < t.size := lt_length_of_getD_some _ _ _ hq
        have hj := hall (t.stepIndexOf r.id q) (t.stepIndexOf_lt r.id q h0)
        obtain ⟨s', hs', hne⟩ :=
          (slotStop_false_iff t.table t.size (t.hash_function r.id) r.id _).mp hj
        rw [show (t.hash_function r.id + t.stepIndexOf r.id q) % t.size = q
          from probePos_stepIndexOf t r.id q h0 hqlt] at hs'
        rw [hq] at hs'
        obtain rfl : s = s' := by injection hs'
        exact hne
      have heqI : (t.insert r).1
          = ⟨t.table.set (t.hash_function r.id) (some r)⟩ := by
        rw [insert_eq_of_full t r heq]
      rw [heqI]
      apply tableInv_set t r (t.hash_function r.id) h0 hInv hh
      · intro q s hq _
        exact hcover q s hq
      · intro j hj
        rw [stepIndexOf_hash t r.id h0] at hj
        exact absurd hj (by omega)
    · -- a stopping slot exists at step firstStop
      have hPlt : t.probePos r.id (t.firstStop r.id) < t.size :=
        HashTable.probePos_lt t r.id _ h0
      have hstep : t.stepIndexOf r.id (t.probePos r.id (t.firstStop r.id))
          = t.firstStop r.id := stepIndexOf_probePos t r.id _ h0 hlt
      have hreach : ∀ j,
          j < t.stepIndexOf r.id (t.probePos r.id (t.firstStop r.id)) →
          t.table.getD (t.probePos r.id j) none ≠ none := by
        intro j hj
        rw [hstep] at hj
        obtain ⟨s', hs', _⟩ :=
          (slotStop_false_iff t.table t.size (t.hash_function r.id) r.id
            j).mp (hmn j hj)
        intro hcon
        rw [show t.probePos r.id j
            = (t.hash_function r.id + j) % t.size from rfl] at hcon
        rw [hcon] at hs'
        cases hs'
      have heqI : (t.insert r).1
          = ⟨t.table.set (t.probePos r.id (t.firstStop r.id)) (some r)⟩ := by
        rw [insert_eq_of_lt t r hlt]
      rcases (slotStop_true_iff t.table t.size (t.hash_function r.id) r.id
          (t.firstStop r.id)).mp (firstStop_stop t r.id hlt) with
        hempty | ⟨s0, hs0, hs0id⟩
      · have hempty' : t.table.getD (t.probePos r.id (t.firstStop r.id)) none
            = none := hempty
        have hfresh := no_dup_of_empty_stop t r.id h0 hInv hlt hempty'
        rw [heqI]
        apply tableInv_set t r _ h0 hInv hPlt
        · intro q s hq _
          exact hfresh q s hq
        · exact hreach
      · have hs0' : t.table.getD (t.probePos r.id (t.firstStop r.id)) none
            = some s0 := hs0
        rw [heqI]
        apply tableInv_set t r _ h0 hInv hPlt
        · intro q s hq hqP hqid
          have hU := hInv.1 q (t.probePos r.id (t.firstStop r.id)) s s0 hqP
            hq hs0'
          rw [hqid, hs0id] at hU
          exact hU rfl
        · exact hreach
  · -- capacity 0: the table is empty and stays empty
    have hsz : t.size = 0 := by omega
    have htab : t.table = [] := List.length_eq_zero.mp hsz
    have heqf : t.firstStop r.id = t.size := by
      have := firstStop_le t r.id
      omega
    have heqI : (t.insert r).1
        = ⟨t.table.set (t.hash_function r.id) (some r)⟩ := by
      rw [insert_eq_of_full t r heqf]
    rw [heqI, htab]
    constructor
    · intro i j ri rj hij hi hj
      rw [show (⟨List.set [] (t.hash_function r.id) (some r)⟩
          : HashTable).table = [] from rfl] at hi
      rw [List.getD_eq_getElem?_getD] at hi
      simp at hi
    · intro p s hp
      rw [show (⟨List.set [] (t.hash_function r.id) (some r)⟩
          : HashTable).table = [] from rfl] at hp
      rw [List.getD_eq_getElem?_getD] at hp
      simp at hp

theorem reachable_tableInv (t : HashTable) (h : Reachable t) : TableInv t := by
  induction h with
  | base n => exact tableInv_mk n
  | step r _ ih => exact tableInv_insert _ r ih

/-- C2: in every table state reachable from the empty table by `insert`
calls, no two distinct occupied slots hold records with equal id. -/
theorem reachable_unique_ids (t : HashTable) (hreach : Reachable t)
    (i j : Nat) (ri rj : Record) (hij : i ≠ j)
    (hi : t.table.getD i none = some ri)
    (hj : t.table.getD j none = some rj) :
    ri.id ≠ rj.id :=
  (reachable_tableInv t hreach).1 i j ri rj hij hi hj

/-- Witness for C2 on the concrete reachable example table (ids 2 and 7
sit in slots 2 and 3). -/
theorem reachable_unique_ids_witness : exRec2.id ≠ exRec7.id :=
  reachable_unique_ids exTable5
    (Reachable.step exRec12 (Reachable.step exRec7
      (Reachable.step exRec2 (Reachable.base 5))))
    2 3 exRec2 exRec7 (by decide) (by decide) (by decide)

/-! ### C5: replace-on-duplicate frame conditions -/

/-- C5: in a reachable table that already holds a record with id
`r.id` at slot `s`, inserting `r` returns that same slot, stores `r`
there, leaves every other slot unchanged, and leaves the occupied-slot
count unchanged. -/
theorem insert_replace_spec (t : HashTable) (hreach : Reachable t)
    (r : Record) (s : Nat) (old : Record)
    (hold : t.table.getD s none = some old) (hid : old.id = r.id) :
    (t.insert r).2 = s
    ∧ (t.insert r).1.table.getD s none = some r
    ∧ (∀ q, q ≠ s → (t.insert r).1.table.getD q none = t.table.getD q none)
    ∧ ((t.insert r).1).occupiedCount = t.occupiedCount := by
  have hInv := reachable_tableInv t hreach
  have hslt : s < t.size := lt_length_of_getD_some _ _ _ hold
  have h0 : 0 < t.size := by omega
  have hstop_i : t.stopCond r.id (t.stepIndexOf r.id s) = true := by
    apply (slotStop_true_iff t.table t.size (t.hash_function r.id) r.id _).mpr
    right
    refine ⟨old, ?_, hid⟩
    rw [show (t.hash_function r.id + t.stepIndexOf r.id s) % t.size = s
      from probePos_stepIndexOf t r.id s h0 hslt]
    exact hold
  have hk_lt : t.firstStop r.id < t.size := by
    have h1 := firstStop_le_of_stop t r.id _ hstop_i
    have h2 := t.stepIndexOf_lt r.id s h0
    omega
  rcases (slotStop_true_iff t.table t.size (t.hash_function r.id) r.id
      (t.firstStop r.id)).mp (firstStop_stop t r.id hk_lt) with
    hempty | ⟨s0, hs0, hs0id⟩
  · have hempty' : t.table.getD (t.probePos r.id (t.firstStop r.id)) none
        = none := hempty
    have := no_dup_of_empty_stop t r.id h0 hInv hk_lt hempty' s old hold
    exact absurd hid this
  · have hs0' : t.table.getD (t.probePos r.id (t.firstStop r.id)) none
        = some s0 := hs0
    have hPs : t.probePos r.id (t.firstStop r.id) = s := by
      by_contra hne
      have hU := hInv.1 (t.probePos r.id (t.firstStop r.id)) s s0 old hne
        hs0' hold
      rw [hs0id, hid] at hU
      exact hU rfl
    have hins := insert_eq_of_lt t r hk_lt
    rw [hPs] at hins
    refine ⟨?_, ?_, ?_, ?_⟩
    · rw [hins]
    · rw [hins]
      show (t.table.set s (some r)).getD s none = some r
      exact getD_set_self _ _ _ hslt
    · intro q hq
      rw [hins]
      show (t.table.set s (some r)).getD q none = t.table.getD q none
      exact getD_set_ne _ _ _ _ (Ne.symm hq)
    · rw [hins]
      show ((t.table.set s (some r)).filter Option.isSome).length
          = (t.table.filter Option.isSome).length
      rw [occupied_filter_set t.table s r hslt, hold]
      rfl

/-- Witness for C5: re-inserting id 2 into the example table (where
`exRec2` sits at slot 2) returns slot 2 and stores the new record there,
with the occupied count unchanged. -/
theorem insert_replace_spec_witness :
    (exTable5.insert exRec2').2 = 2
    ∧ (exTable5.insert exRec2').1.table.getD 2 none = some exRec2'
    ∧ ((exTable5.insert exRec2').1).occupiedCount
        = exTable5.occupiedCount := by
  have h := insert_replace_spec exTable5
    (Reachable.step exRec12 (Reachable.step exRec7
      (Reachable.step exRec2 (Reachable.base 5))))
    exRec2' 2 exRec2 (by decide) (by decide)
  exact ⟨h.1, h.2.1, h.2.2.2⟩

/-! ### C4: rebuild from the snapshot -/

theorem reachableNF_reachable (t : HashTable) (h : ReachableNF t) :
    Reachable t := by
  induction h with
  | base n => exact Reachable.base n
  | step r _ _ ih => exact Reachable.step r ih

theorem replicate_filterMap_nil (n : Nat) :
    (List.replicate n (none : Option Record)).filterMap (fun o => o) = [] := by
  induction n with
  | zero => rfl
  | succ m ih => simp [List.replicate_succ, List.filterMap_cons, ih]

theorem flatten_clear (t : HashTable) : t.clear.flatten = [] :=
  replicate_filterMap_nil t.size

theorem getD_some_mem (l : List (Option Record)) (p : Nat) (s : Record)
    (h : l.getD p none = some s) : some s ∈ l := by
  have hp := lt_length_of_getD_some l p s h
  rw [List.getD_eq_getElem?_getD, List.getElem?_eq_getElem hp] at h
  simp only [Option.getD_some] at h
  exact List.mem_iff_getElem.mpr ⟨p, hp, h⟩

theorem mem_filterMap_getD (l : List (Option Record)) (s : Record)
    (h : s ∈ l.filterMap (fun o => o)) : ∃ p, l.getD p none = some s := by
  rw [List.mem_filterMap] at h
  obtain ⟨o, ho, heq⟩ := h
  have ho' : some s ∈ l := by rw [← heq]; exact ho
  obtain ⟨p, hp, hpe⟩ := List.mem_iff_getElem.mp ho'
  refine ⟨p, ?_⟩
  rw [List.getD_eq_getElem?_getD, List.getElem?_eq_getElem hp]
  simpa using hpe

theorem filterMap_pairwise_ne (l : List (Option Record))
    (h : ∀ i j ri rj, i ≠ j → l.getD i none = some ri →
      l.getD j none = some rj → ri.id ≠ rj.id) :
    (l.filterMap (fun o => o)).Pairwise (fun a b => a.id ≠ b.id) := by
  induction l with
  | nil => simp
  | cons x xs ih =>
    have hshift : ∀ i j ri rj, i ≠ j → xs.getD i none = some ri →
        xs.getD j none = some rj → ri.id ≠ rj.id := by
      intro i j ri rj hij hi hj
      refine h (i + 1) (j + 1) ri rj (by omega) ?_ ?_
      · rw [List.getD_cons_succ]; exact hi
      · rw [List.getD_cons_succ]; exact hj
    cases x with
    | none =>
      simp only [List.filterMap_cons]
      exact ih hshift
    | some a =>
      simp only [List.filterMap_cons]
      refine List.Pairwise.cons ?_ (ih hshift)
      intro b hb
      obtain ⟨p, hp⟩ := mem_filterMap_getD xs b hb
      refine h 0 (p + 1) a b (by omega) ?_ ?_
      · rfl
      · rw [List.getD_cons_succ]; exact hp

theorem filterMap_length_of_all_some (l : List (Option Record))
    (h : ∀ o ∈ l, o.isSome) :
    (l.filterMap (fun o => o)).length = l.length := by
  induction l with
  | nil => rfl
  | cons x xs ih =>
    have hx := h x (by simp)
    obtain ⟨a, rfl⟩ := Option.isSome_iff_exists.mp hx
    simp only [List.filterMap_cons, List.length_cons]
    rw [ih (fun o ho => h o (by simp [ho]))]

theorem exists_empty_slot (t : HashTable) (h : t.flatten.length < t.size) :
    ∃ q, q < t.size ∧ t.table.getD q none = none := by
  by_contra hno
  push_neg at hno
  have hall : ∀ o ∈ t.table, o.isSome := by
    intro o ho
    obtain ⟨q, hq, hqe⟩ := List.mem_iff_getElem.mp ho
    have hgd : t.table.getD q none = o := by
      rw [List.getD_eq_getElem?_getD, List.getElem?_eq_getElem hq]
      simpa using hqe
    have hne := hno q hq
    rw [hgd] at hne
    cases o with
    | none => exact absurd rfl hne
    | some a => rfl
  have hlen : t.flatten.length = t.table.length :=
    filterMap_length_of_all_some t.table hall
  have hsz : t.size = t.table.length := rfl
  omega

theorem flatten_set_empty_perm (l : List (Option Record)) :
    ∀ (p : Nat) (r : Record), p < l.length → l.getD p none = none →
      List.Perm ((l.set p (some r)).filterMap (fun o => o))
        (r :: l.filterMap (fun o => o)) := by
  induction l with
  | nil => intro p r hp hnone; exact absurd hp (by simp)
  | cons x xs ih =>
    intro p r hp hnone
    cases p with
    | zero =>
      have hx : x = none := by simpa using hnone
      subst hx
      simp [List.filterMap_cons]
    | succ q =>
      have hq : q < xs.length := by simpa using hp
      rw [List.getD_cons_succ] at hnone
      cases x with
      | none =>
        show List.Perm ((none :: xs.set q (some r)).filterMap (fun o => o))
          (r :: (none :: xs).filterMap (fun o => o))
        simp only [List.filterMap_cons]
        exact ih q r hq hnone
      | some a =>
        show List.Perm ((some a :: xs.set q (some r)).filterMap (fun o => o))
          (r :: (some a :: xs).filterMap (fun o => o))
        simp only [List.filterMap_cons]
        refine ((ih q r hq hnone).cons a).trans ?_
        exact List.Perm.swap r a _

theorem insert_fresh_perm (t : HashTable) (r : Record) (h0 : 0 < t.size)
    (hfresh : ∀ p s, t.table.getD p none = some s → s.id ≠ r.id)
    (hroom : t.flatten.length < t.size) :
    ((t.insert r).1).flatten.Perm (r :: t.flatten) := by
  obtain ⟨q, hq, hempty⟩ := exists_empty_slot t hroom
  have hstopq : t.stopCond r.id (t.stepIndexOf r.id q) = true := by
    apply (slotStop_true_iff t.table t.size (t.hash_function r.id) r.id _).mpr
    left
    rw [show (t.hash_function r.id + t.stepIndexOf r.id q) % t.size = q
      from probePos_stepIndexOf t r.id q h0 hq]
    exact hempty
  have hk : t.firstStop r.id < t.size := by
    have h1 := firstStop_le_of_stop t r.id _ hstopq
    have h2 := t.stepIndexOf_lt r.id q h0
    omega
  rcases (slotStop_true_iff t.table t.size (t.hash_function r.id) r.id
      (t.firstStop r.id)).mp (firstStop_stop t r.id hk) with
    hnone | ⟨s0, hs0, hs0id⟩
  · have htab : (t.insert r).1.table
        = t.table.set (t.probePos r.id (t.firstStop r.id)) (some r) := by
      rw [insert_eq_of_lt t r hk]
    show List.Perm ((t.insert r).1.table.filterMap (fun o => o))
      (r :: t.table.filterMap (fun o => o))
    rw [htab]
    exact flatten_set_empty_perm t.table _ r
      (HashTable.probePos_lt t r.id _ h0) hnone
  · exact absurd (hfresh _ s0 hs0) (by simp [hs0id])

theorem foldl_insert_perm (rs : List Record) :
    ∀ (acc : HashTable),
      (acc.flatten ++ rs).Pairwise (fun a b => a.id ≠ b.id) →
      acc.flatten.length + rs.length ≤ acc.size →
      ((rs.foldl (fun a r => (a.insert r).1) acc).flatten).Perm
        (acc.flatten ++ rs) := by
  induction rs with
  | nil =>
    intro acc hpw hlen
    simp
  | cons r rest ih =>
    intro acc hpw hlen
    simp only [List.foldl_cons]
    have hlen' : acc.flatten.length + (rest.length + 1) ≤ acc.size := by
      simpa using hlen
    have h0 : 0 < acc.size := by omega
    have hfresh : ∀ p s, acc.table.getD p none = some s → s.id ≠ r.id := by
      intro p s hp hsr
      have hmem : s ∈ acc.flatten := by
        show s ∈ acc.table.filterMap (fun o => o)
        rw [List.mem_filterMap]
        exact ⟨some s, getD_some_mem acc.table p s hp, rfl⟩
      have hap := (List.pairwise_append.mp hpw).2.2 s hmem r (by simp)
      exact hap hsr
    have hroom : acc.flatten.length < acc.size := by omega
    have hperm1 := insert_fresh_perm acc r h0 hfresh hroom
    have hsz : ((acc.insert r).1).size = acc.size := insert_size acc r
    have hlen1 : ((acc.insert r).1).flatten.length
        = acc.flatten.length + 1 := by
      have := hperm1.length_eq
      simpa using this
    have hperm2 : List.Perm ((acc.insert r).1.flatten ++ rest)
        (acc.flatten ++ r :: rest) := by
      refine (hperm1.append_right rest).trans ?_
      show List.Perm (r :: (acc.flatten ++ rest)) (acc.flatten ++ r :: rest)
      exact List.perm_middle.symm
    have hpw1 : (((acc.insert r).1).flatten ++ rest).Pairwise
        (fun a b => a.id ≠ b.id) := by
      have hsym : ∀ {x y : Record}, x.id ≠ y.id → y.id ≠ x.id :=
        fun hxy => Ne.symm hxy
      exact (List.Perm.pairwise_iff hsym hperm2).mpr hpw
    have hlen2 : ((acc.insert r).1).flatten.length + rest.length
        ≤ ((acc.insert r).1).size := by
      rw [hsz, hlen1]
      omega
    exact (ih ((acc.insert r).1) hpw1 hlen2).trans hperm2

/-- Counterexample to C4 as stated: the table of capacity 3 reached by
inserting id 2 (slot 2) then id 5 (probes slot 2, wraps to slot 0) has
snapshot `[exRec5, exRec2]`; rebuilding from that snapshot puts id 5 at
its home slot 2 and id 2 at slot 0, so the new snapshot is
`[exRec2, exRec5]` — the same records in a different order. -/
theorem rebuild_snapshot_counterexample :
    ReachableNF exTable3
    ∧ (rebuild_hashtable_from_list exTable3 exTable3.flatten).flatten
        ≠ exTable3.flatten := by
  refine ⟨?_, by decide⟩
  exact ReachableNF.step exRec5
    (ReachableNF.step exRec2 (ReachableNF.base 3) (by decide)) (by decide)

/-- C4 (amended): for every table state reachable purely through
`insert` calls with no full-table fallback, rebuilding from the snapshot
and taking the snapshot again yields the same records as the original
snapshot — as a permutation, not necessarily in the same order. -/
theorem rebuild_snapshot_perm (t : HashTable) (h : ReachableNF t) :
    ((rebuild_hashtable_from_list t t.flatten).flatten).Perm t.flatten := by
  have hInv := reachable_tableInv t (reachableNF_reachable t h)
  have hpw : t.flatten.Pairwise (fun a b => a.id ≠ b.id) :=
    filterMap_pairwise_ne t.table hInv.1
  have hc2 : t.clear.size = t.size := by
    show (List.replicate t.size (none : Option Record)).length = t.size
    simp
  have hlenle : t.flatten.length ≤ t.size :=
    List.length_filterMap_le (fun o => o) t.table
  have h1 := foldl_insert_perm t.flatten t.clear
    (by rw [flatten_clear]; simpa using hpw)
    (by rw [flatten_clear, hc2]; simpa using hlenle)
  rw [flatten_clear] at h1
  show ((t.flatten.foldl (fun a r => (a.insert r).1) t.clear).flatten).Perm
    t.flatten
  simpa using h1

/-- Witness for C4 (amended) at the concrete size-3 example table. -/
theorem rebuild_snapshot_perm_witness :
    ((rebuild_hashtable_from_list exTable3 exTable3.flatten).flatten).Perm
      exTable3.flatten :=
  rebuild_snapshot_perm exTable3
    (ReachableNF.step exRec5
      (ReachableNF.step exRec2 (ReachableNF.base 3) (by decide)) (by decide))
